import Mathlib

/-!
Verification of the persistent render-job queue and resumable worker pipeline
of the `resonate` repository.

The job store (`src/lib/queue.ts`, the JSON-file-backed variant) is embedded
as pure operations on a `List QueueJob` (the contents of `jobs.json`); the
worker (`src/lib/worker.ts`) is embedded as pure functions over that store
plus a small filesystem/server abstraction.  Machine numbers (progress
values) are modelled as rationals; timestamps as naturals.
-/

/-- Job lifecycle status, from `export type JobStatus` in `src/lib/queue.ts`. -/
inductive JobStatus where
  | pending
  | rendering
  | done
  | error
  | cancelled
deriving DecidableEq, Repr

/-- One row of `jobs.json`, from `export interface QueueJob` in
`src/lib/queue.ts`.  Optional TS fields become `Option`. -/
structure QueueJob where
  id : String
  label : String
  status : JobStatus
  progress : ℚ
  createdAt : ℕ
  startedAt : Option ℕ := none
  completedAt : Option ℕ := none
  outputUrl : Option String := none
  error : Option String := none
  payload : String
  outputFileName : Option String := none
  encoderUsed : Option String := none
deriving DecidableEq, Repr

/-- A `Partial<QueueJob>` argument to `queue.update`: fields that are present
in the patch override the stored row (TS object spread `{ ...job, ...updates }`). -/
structure JobPatch where
  status : Option JobStatus := none
  progress : Option ℚ := none
  startedAt : Option ℕ := none
  completedAt : Option ℕ := none
  outputUrl : Option String := none
  error : Option String := none
  outputFileName : Option String := none
  encoderUsed : Option String := none
deriving DecidableEq, Repr

/-- `{ ...job, ...updates }` — the merge performed inside `queue.update`. -/
def mergeJob (j : QueueJob) (p : JobPatch) : QueueJob :=
  { j with
    status := p.status.getD j.status
    progress := p.progress.getD j.progress
    startedAt := p.startedAt <|> j.startedAt
    completedAt := p.completedAt <|> j.completedAt
    outputUrl := p.outputUrl <|> j.outputUrl
    error := p.error <|> j.error
    outputFileName := p.outputFileName <|> j.outputFileName
    encoderUsed := p.encoderUsed <|> j.encoderUsed }

namespace queue

/-- `queue.add`: pushes a fresh pending row (status `pending`, progress 0,
`createdAt := now`) onto the stored array. -/
def add (jobs : List QueueJob) (id label : String) (payload : String) (now : ℕ) :
    List QueueJob :=
  jobs ++ [{ id := id, label := label, status := .pending, progress := 0,
             createdAt := now, payload := payload }]

/-- `queue.get`: `readJobs().find(j => j.id === id)`. -/
def get (jobs : List QueueJob) (id : String) : Option QueueJob :=
  jobs.find? (fun j => j.id = id)

/-- `queue.update`: `findIndex` of the first row with the given id, replace it
with the merged row; no-op when the id is absent. -/
def update (id : String) (p : JobPatch) : List QueueJob → List QueueJob
  | [] => []
  | j :: rest =>
      if j.id = id then mergeJob j p :: rest else j :: update id p rest

/-- `queue.setProgress`: `update(id, { progress, status: 'rendering' })` —
the status write is unconditional. -/
def setProgress (jobs : List QueueJob) (id : String) (progress : ℚ) :
    List QueueJob :=
  update id { progress := some progress, status := some .rendering } jobs

/-- `queue.cancel`: `update(id, { status: 'cancelled' })` — unconditional. -/
def cancel (jobs : List QueueJob) (id : String) : List QueueJob :=
  update id { status := some .cancelled } jobs

/-- `queue.delete`: drop every row with the given id. -/
def del (jobs : List QueueJob) (id : String) : List QueueJob :=
  jobs.filter (fun j => ¬ j.id = id)

/-- `queue.clear`: drop every row whose status is done, error or cancelled. -/
def clear (jobs : List QueueJob) : List QueueJob :=
  jobs.filter (fun j => ¬ (j.status = .done ∨ j.status = .error ∨ j.status = .cancelled))

/-- The comparator `(a, b) => a.createdAt - b.createdAt` of `nextPending`. -/
def byCreatedAt (a b : QueueJob) : Prop := a.createdAt ≤ b.createdAt

instance : DecidableRel byCreatedAt := fun a b => by
  unfold byCreatedAt; infer_instance

/-- `queue.nextPending`:
`readJobs().filter(j => j.status === 'pending').sort((a,b) => a.createdAt - b.createdAt)[0]`.
JavaScript `Array.prototype.sort` is stable, so the sort is embedded as a
stable insertion sort by `createdAt`. -/
def nextPending (jobs : List QueueJob) : Option QueueJob :=
  (List.insertionSort byCreatedAt
    (jobs.filter (fun j => j.status = .pending))).head?

end queue

/-- `DELETE /api/queue/status?id=...` (the queue facade's cancel operation):
calls `queue.cancel(id)` and returns `{ ok: true }` unconditionally. -/
def cancelJob (jobs : List QueueJob) (id : String) : List QueueJob × Bool :=
  (queue.cancel jobs id, true)

/-- One poll iteration of `runLoop` in `src/lib/worker.ts`, abstracted over
the job-processing body (`renderJob` plus its catch handler): when
`queue.nextPending()` returns nothing the loop sleeps and leaves the store
untouched; otherwise it hands the dequeued job to the body. -/
def runLoopStep (handle : QueueJob → List QueueJob → List QueueJob)
    (jobs : List QueueJob) : List QueueJob :=
  match queue.nextPending jobs with
  | none => jobs
  | some j => handle j jobs

/-- The durable store left behind when the process crashed mid-render: one
job whose stored status is still `rendering` (40% of its frames are on
disk), exactly the situation of end-to-end scenario C. -/
def crashedStore : List QueueJob :=
  [{ id := "j1", label := "Crashed Mix", status := .rendering,
     progress := 2/5, createdAt := 1000, startedAt := some 1001,
     payload := "p" }]

/-- Spec-side description of "oldest pending, ties broken by insertion
order": the first element of the list whose key is minimal. -/
def firstMinBy (key : QueueJob → ℕ) : List QueueJob → Option QueueJob
  | [] => none
  | x :: l =>
      match firstMinBy key l with
      | none => some x
      | some y => if key x ≤ key y then some x else some y

/-- A completed job, used as concrete input for the store-level
counterexamples. -/
def doneJob : QueueJob :=
  { id := "a", label := "Mix A", status := .done, progress := 1,
    createdAt := 7, completedAt := some 9, payload := "p" }

/-- Concrete three-job store: one done job created last, and two pending
jobs created at the same millisecond (a `createdAt` tie). -/
def jobA : QueueJob :=
  { id := "a", label := "A", status := .done, progress := 1,
    createdAt := 5, payload := "pa" }

def jobB : QueueJob :=
  { id := "b", label := "B", status := .pending, progress := 0,
    createdAt := 3, payload := "pb" }

def jobC : QueueJob :=
  { id := "c", label := "C", status := .pending, progress := 0,
    createdAt := 3, payload := "pc" }

def jobsABC : List QueueJob := [jobA, jobB, jobC]

/-- Does `needle` occur at the very start of `hay`? (helper for the
JavaScript `String.prototype.includes` test). -/
def charsBeginWith : List Char → List Char → Bool
  | [], _ => true
  | _ :: _, [] => false
  | c :: cs, d :: ds => c == d && charsBeginWith cs ds

/-- Does `needle` occur contiguously anywhere in `hay`? -/
def charsHaveSub (needle : List Char) : List Char → Bool
  | [] => needle.isEmpty
  | d :: ds => charsBeginWith needle (d :: ds) || charsHaveSub needle ds

/-- `s.includes(sub)` on JavaScript strings. -/
def jsIncludes (s sub : String) : Bool := charsHaveSub sub.data s.data

/-- Outcome of the encoder capability probe in `detectHWEncoder`:
`findFfmpeg()` found no binary, the `execSync` probe threw (swallowed by the
`try/catch`), or the probe printed `out`. -/
inductive ProbeResult where
  | missing
  | errored
  | output (out : String)
deriving DecidableEq, Repr

/-- `detectHWEncoder()` from `src/lib/worker.ts`: scan the probe output for
hardware encoder names in a fixed order, falling back to `libx264` when the
tool is missing, the probe throws, or no name matches. -/
def detectHWEncoder : ProbeResult → String
  | .missing => "libx264"
  | .errored => "libx264"
  | .output out =>
      if jsIncludes out "h264_nvenc" then "h264_nvenc"
      else if jsIncludes out "h264_videotoolbox" then "h264_videotoolbox"
      else if jsIncludes out "h264_amf" then "h264_amf"
      else if jsIncludes out "h264_qsv" then "h264_qsv"
      else "libx264"

/-- The fixed hardware-encoder priority order of the `includes` chain. -/
def encoderPriority : List String :=
  ["h264_nvenc", "h264_videotoolbox", "h264_amf", "h264_qsv"]

/-- `getEncoder()`: memoized detection — returns the cached encoder when
one is stored, otherwise runs detection and caches the result. -/
def getEncoder (cached : Option String) (probe : ProbeResult) :
    String × Option String :=
  match cached with
  | some e => (e, some e)
  | none => (detectHWEncoder probe, some (detectHWEncoder probe))

/-- The staged audio filename `audio-${trackId}.data` built in `renderJob`;
`trackId` is a raw key of the payload's `audioFiles` map, which
`POST /api/queue/add` populates with the uploaded file's name. -/
def audioSafeName (trackId : String) : String :=
  "audio-" ++ trackId ++ ".data"

/-- The staged background filename `bg-${bgId}.data` built in `renderJob`. -/
def bgSafeName (bgId : String) : String :=
  "bg-" ++ bgId ++ ".data"

/-- The character class the spec's sanitization contract allows in staged
filenames: alphanumerics, `.` and `-`. -/
def sanitizedChar (c : Char) : Bool :=
  c.isAlphanum || c == '.' || c == '-'

/-- `absoluteProgress` from the `renderMedia` `onProgress` callback:
`(startFrame + progress * rangeLength) / durationInFrames` with
`rangeLength = endFrame - startFrame + 1` and `endFrame = durationInFrames - 1`. -/
def absoluteProgress (startFrame durationInFrames : ℕ) (p : ℚ) : ℚ :=
  ((startFrame : ℚ) +
      p * (((durationInFrames : ℚ) - 1) - (startFrame : ℚ) + 1)) /
    (durationInFrames : ℚ)

/-- The sequence of `progress` values `renderJob` writes to the store for
one job on the success path, in program order: the initial `0.01` write,
then — when frames remain to render — the range write
`startFrame / durationInFrames` followed by one write per `renderMedia`
progress callback, then the stitch-step `0.99` write, then the final write
of `1` together with status `done`. -/
def progressWrites (startFrame durationInFrames : ℕ) (ps : List ℚ) :
    List ℚ :=
  [1/100] ++
  (if startFrame ≤ durationInFrames - 1 then
      ((startFrame : ℚ) / (durationInFrames : ℚ)) ::
        ps.map (absoluteProgress startFrame durationInFrames)
    else []) ++
  [99/100, 1]

/-- Decimal digit characters of a natural number, most significant first
(the characters `Nat.repr` produces, stated structurally). -/
def decDigits (n : ℕ) : List Char :=
  if _h : n < 10 then [Nat.digitChar n]
  else decDigits (n / 10) ++ [Nat.digitChar (n % 10)]
termination_by n
decreasing_by exact Nat.div_lt_self (by omega) (by omega)

/-- `parseInt` on a decimal digit string. -/
def digitsVal (ds : List Char) : ℕ :=
  ds.foldl (fun a c => a * 10 + (c.toNat - 48)) 0

/-- The filter `/^frame-\d+\.jpeg$/.test(f)` applied by `renderJob` to the
frame-directory listing: a 6-character `frame-` head, a 5-character `.jpeg`
tail, and a nonempty all-digit middle. -/
def isFrameFile (s : String) : Bool :=
  let l := s.data
  decide (l.take 6 = "frame-".data) &&
  decide (l.drop (l.length - 5) = ".jpeg".data) &&
  decide (11 ≤ l.length) &&
  (let ds := (l.drop 6).take (l.length - 11)
   (!ds.isEmpty) && ds.all Char.isDigit)

/-- `parseInt(f.match(/(\d+)/)![1])`: the value of the first contiguous
digit run of the name. -/
def firstDigitRunVal (s : String) : ℕ :=
  digitsVal ((s.data.dropWhile (fun c => !c.isDigit)).takeWhile Char.isDigit)

/-- The resume computation of `renderJob`: filter the frame-directory
listing by the frame-file pattern; when any frame files exist, resume at
`Math.max(...frame numbers) + 1`, otherwise start at frame 0. -/
def startFrameOf (files : List String) : ℕ :=
  let frameFiles := files.filter isFrameFile
  if frameFiles.length > 0 then
    (frameFiles.map firstDigitRunVal).foldl Nat.max 0 + 1
  else 0

/-- The file name the compositor writes for frame `i` (the
`frame-{frame}.jpeg` output template of `renderMedia`, also read back by
the stitch step's `frame-%d.jpeg` pattern). -/
def frameName (i : ℕ) : String :=
  "frame-" ++ Nat.repr i ++ ".jpeg"

/-- The frame indices requested from `renderMedia` via
`frameRange: [startFrame, endFrame]` with `endFrame = durationInFrames - 1`;
empty when `startFrame > endFrame` (render skipped, straight to stitch). -/
def requestedFrames (files : List String) (durationInFrames : ℕ) : List ℕ :=
  let s := startFrameOf files
  if s ≤ durationInFrames - 1 then
    List.range' s (durationInFrames - 1 - s + 1)
  else []

/-- The job-scoped filesystem and listener resources `renderJob` touches:
the durable frame directory `.queue/frames/<id>`, the staging directory
under the OS temp root, and the loopback asset server. -/
structure WorkerFS where
  framesDir : Bool
  tempDir : Bool
  serverOpen : Bool
deriving DecidableEq, Repr

/-- The state one `renderJob` execution acts on: the job store plus the
job-scoped resources. -/
structure RenderState where
  jobs : List QueueJob
  fs : WorkerFS
deriving DecidableEq, Repr

/-- Per-execution parameters of `renderJob` that surface in store writes:
the resume-point range write `startFrame / durationInFrames`, the scaled
frame-callback progress values, the detected encoder, the output file name
`render-id.mp4`, and the wall-clock stamps. -/
structure RenderParams where
  id : String
  rangeProgress : ℚ
  callbacks : List ℚ
  encoder : String
  outputFileName : String
  startedAt : ℕ
deriving DecidableEq, Repr

/-- The sequential steps of `renderJob` (`src/lib/worker.ts`), by index,
as effects on the modelled state.  Steps that only touch unmodelled state
(parsing, staging writes, bundling, the external engine invocations) are
identities here but can still throw:
0 `JSON.parse(job.payload)` (l. 109); 1 the initial
`status/startedAt/progress 0.01` update (l. 112); 2 `mkdir(tempDir)`
(ll. 114-115); 3 the dynamic imports (ll. 120-121); 4 writing the staged
audio files (ll. 125-129); 5 writing the staged background files
(ll. 133-137); 6 creating and binding the loopback server (ll. 140-151);
7 `bundle` (l. 178); 8 `mkdir(framesDir)` (l. 204); 9 `readdir` and the
resume computation (ll. 207-219); 10 `selectComposition` (l. 222);
11 the frame render: the range progress update then one `setProgress` per
callback (ll. 230-251); 12 the stitch-step `0.99` update (l. 257); 13 the
`encoderUsed` update (l. 269); 14 the audio render (ll. 315-322); 15 the
`execSync` stitch (l. 327); 16 the `done` update (ll. 329-335); 17
`rm(framesDir)` (l. 338). -/
def startPatch (startedAt : ℕ) : JobPatch :=
  { status := some .rendering, startedAt := some startedAt,
    progress := some (1/100) }

def rangePatch (q : ℚ) : JobPatch :=
  { status := some .rendering, progress := some q }

def stitchPatch : JobPatch :=
  { status := some .rendering, progress := some (99/100) }

def encoderPatch (e : String) : JobPatch :=
  { encoderUsed := some e }

def donePatch (outputFileName : String) (tDone : ℕ) : JobPatch :=
  { status := some .done, progress := some 1,
    outputUrl := some ("/" ++ outputFileName),
    outputFileName := some outputFileName, completedAt := some tDone }

def errorPatch (msg : String) (tErr : ℕ) : JobPatch :=
  { status := some .error, error := some msg, completedAt := some tErr }

def renderStep (P : RenderParams) (tDone : ℕ) : ℕ → RenderState → RenderState
  | 1, s => { s with jobs := queue.update P.id (startPatch P.startedAt) s.jobs }
  | 2, s => { s with fs := { s.fs with tempDir := true } }
  | 6, s => { s with fs := { s.fs with serverOpen := true } }
  | 8, s => { s with fs := { s.fs with framesDir := true } }
  | 11, s => { s with jobs := (P.callbacks.foldl
      (fun js q => queue.setProgress js P.id q)
      (queue.update P.id (rangePatch P.rangeProgress) s.jobs)) }
  | 12, s => { s with jobs := queue.update P.id stitchPatch s.jobs }
  | 13, s => { s with jobs := queue.update P.id (encoderPatch P.encoder) s.jobs }
  | 16, s => { s with jobs := (queue.update P.id
      (donePatch P.outputFileName tDone) s.jobs) }
  | 17, s => { s with fs := { s.fs with framesDir := false } }
  | _, s => s

/-- The `finally` block (ll. 341-345): close the listener if it was
opened, remove the staging directory — run on every exit from the `try`. -/
def renderFinally (s : RenderState) : RenderState :=
  { s with fs := { s.fs with serverOpen := false, tempDir := false } }

/-- The catch handler of `runLoop` (ll. 95-102): mark the job errored with
the exception's message and a completion stamp. -/
def catchUpdate (id msg : String) (tErr : ℕ) (s : RenderState) :
    RenderState :=
  { s with jobs := queue.update id (errorPatch msg tErr) s.jobs }

/-- Run the first `k` steps of `renderJob`. -/
def runSteps (P : RenderParams) (tDone : ℕ) : ℕ → RenderState → RenderState
  | 0, s => s
  | k + 1, s => renderStep P tDone k (runSteps P tDone k s)

/-- One `renderJob` execution as observed through `runLoop`: either all 18
steps complete and the `finally` block runs (success), or step `k` throws
after steps `0..k-1` completed — the `finally` block runs only when the
throwing step sits inside the `try` (steps 0-2 precede it), and
`runLoop`'s catch then marks the job errored. -/
def renderJobRun (P : RenderParams) (tDone : ℕ) (msg : String) (tErr : ℕ) :
    Option ℕ → RenderState → RenderState
  | none, s => renderFinally (runSteps P tDone 18 s)
  | some k, s =>
      if 3 ≤ k then
        catchUpdate P.id msg tErr (renderFinally (runSteps P tDone k s))
      else
        catchUpdate P.id msg tErr (runSteps P tDone k s)

/-- A dequeued job and a fresh process state, concrete inputs for the C9
witness. -/
def wJob : QueueJob :=
  { id := "w", label := "W", status := .pending, progress := 0,
    createdAt := 11, payload := "pw" }

def rpW : RenderParams :=
  { id := "w", rangeProgress := 0, callbacks := [], encoder := "libx264",
    outputFileName := "render-w.mp4", startedAt := 12 }

def rsW : RenderState :=
  { jobs := [wJob],
    fs := { framesDir := false, tempDir := false, serverOpen := false } }

-- Theorems start here.

theorem opt_orElse_self {α : Type} (a b : Option α) :
    (a <|> (a <|> b)) = (a <|> b) := by
  cases a <;> rfl

theorem opt_getD_getD {α : Type} (a : Option α) (x : α) :
    a.getD (a.getD x) = a.getD x := by
  cases a <;> rfl

/-- Merging the same patch twice is the same as merging it once. -/
theorem mergeJob_mergeJob (j : QueueJob) (p : JobPatch) :
    mergeJob (mergeJob j p) p = mergeJob j p := by
  simp only [mergeJob, opt_orElse_self, opt_getD_getD]

/-- The merge never touches the `id` field. -/
theorem mergeJob_id (j : QueueJob) (p : JobPatch) :
    (mergeJob j p).id = j.id := rfl

/-- `queue.update` rewrites exactly the looked-up row. -/
theorem get_update (jobs : List QueueJob) (id : String) (p : JobPatch) :
    queue.get (queue.update id p jobs) id =
      (queue.get jobs id).map (fun j => mergeJob j p) := by
  induction jobs with
  | nil => rfl
  | cons x rest ih =>
      by_cases h : x.id = id
      · simp [queue.update, queue.get, h, List.find?, mergeJob_id]
      · simp only [queue.update, if_neg h]
        simp only [queue.get, List.find?] at ih ⊢
        simp [h, ih]

/-- `queue.update` is idempotent for a fixed patch. -/
theorem update_update (jobs : List QueueJob) (id : String) (p : JobPatch) :
    queue.update id p (queue.update id p jobs) = queue.update id p jobs := by
  induction jobs with
  | nil => rfl
  | cons x rest ih =>
      by_cases h : x.id = id
      · simp [queue.update, h, mergeJob_id, mergeJob_mergeJob]
      · simp [queue.update, h, ih]

/-- If the first row with the given id is left fixed by the merge, the
update is a no-op on the whole store. -/
theorem update_eq_self (jobs : List QueueJob) (id : String) (p : JobPatch)
    (j : QueueJob) (hget : queue.get jobs id = some j)
    (hfix : mergeJob j p = j) :
    queue.update id p jobs = jobs := by
  induction jobs with
  | nil => simp [queue.get] at hget
  | cons x rest ih =>
      by_cases h : x.id = id
      · simp [queue.get, List.find?, h] at hget
        subst hget
        simp [queue.update, h, hfix]
      · simp [queue.get, List.find?, h] at hget
        simp only [queue.update, if_neg h]
        rw [ih hget]

theorem firstMinBy_eq_none (key : QueueJob → ℕ) (l : List QueueJob) :
    firstMinBy key l = none ↔ l = [] := by
  cases l with
  | nil => simp [firstMinBy]
  | cons x t =>
      simp only [firstMinBy]
      cases h : firstMinBy key t with
      | none => simp
      | some y =>
          by_cases hk : key x ≤ key y <;> simp [hk]

/-- A returned first-minimum is a member, is key-minimal, and every element
strictly before it in the list has a strictly larger key. -/
theorem firstMinBy_spec (key : QueueJob → ℕ) (l : List QueueJob) :
    ∀ j, firstMinBy key l = some j →
      j ∈ l ∧ (∀ x ∈ l, key j ≤ key x) ∧
        ∃ l₁ l₂, l = l₁ ++ j :: l₂ ∧ ∀ x ∈ l₁, key j < key x := by
  induction l with
  | nil => intro j hj; simp [firstMinBy] at hj
  | cons x t ih =>
      intro j hj
      simp only [firstMinBy] at hj
      cases h : firstMinBy key t with
      | none =>
          rw [h] at hj
          dsimp only at hj
          rw [firstMinBy_eq_none] at h
          subst h
          simp only [Option.some.injEq] at hj
          subst hj
          exact ⟨by simp, by simp, [], [], by simp, by simp⟩
      | some y =>
          rw [h] at hj
          dsimp only at hj
          obtain ⟨hmem, hmin, l₁, l₂, hsplit, hstrict⟩ := ih y h
          by_cases hk : key x ≤ key y
          · rw [if_pos hk] at hj
            simp only [Option.some.injEq] at hj
            subst hj
            refine ⟨by simp, ?_, [], t, by simp, by simp⟩
            intro z hz
            rcases List.mem_cons.mp hz with rfl | hz
            · exact le_rfl
            · exact le_trans hk (hmin z hz)
          · rw [if_neg hk] at hj
            simp only [Option.some.injEq] at hj
            subst hj
            refine ⟨List.mem_cons_of_mem _ hmem, ?_, x :: l₁, l₂,
              by simp [hsplit], ?_⟩
            · intro z hz
              rcases List.mem_cons.mp hz with rfl | hz
              · exact le_of_lt (lt_of_not_le hk)
              · exact hmin z hz
            · intro z hz
              rcases List.mem_cons.mp hz with rfl | hz
              · exact lt_of_not_le hk
              · exact hstrict z hz

/-- Decomposing a list along a decomposition of its filtered image. -/
theorem filter_split (p : QueueJob → Bool) (jobs : List QueueJob)
    (f₁ : List QueueJob) (j : QueueJob) (f₂ : List QueueJob)
    (h : jobs.filter p = f₁ ++ j :: f₂) :
    ∃ g₁ g₂, jobs = g₁ ++ j :: g₂ ∧ g₁.filter p = f₁ := by
  induction jobs generalizing f₁ with
  | nil => simp at h
  | cons a rest ih =>
      by_cases ha : p a
      · rw [List.filter_cons_of_pos ha] at h
        cases f₁ with
        | nil =>
            simp only [List.nil_append, List.cons.injEq] at h
            obtain ⟨rfl, h₂⟩ := h
            exact ⟨[], rest, by simp, by simp⟩
        | cons b f₁' =>
            simp only [List.cons_append, List.cons.injEq] at h
            obtain ⟨rfl, h₂⟩ := h
            obtain ⟨g₁, g₂, hsplit, hfilter⟩ := ih f₁' h₂
            exact ⟨a :: g₁, g₂, by simp [hsplit],
              by rw [List.filter_cons_of_pos ha, hfilter]⟩
      · rw [List.filter_cons_of_neg ha] at h
        obtain ⟨g₁, g₂, hsplit, hfilter⟩ := ih f₁ h
        exact ⟨a :: g₁, g₂, by simp [hsplit],
          by rw [List.filter_cons_of_neg ha, hfilter]⟩

/-- Inserting preserves the `firstMinBy` recursion at the head. -/
theorem head?_orderedInsert (x : QueueJob) (s : List QueueJob) :
    (List.orderedInsert queue.byCreatedAt x s).head? =
      match s.head? with
      | none => some x
      | some b => if x.createdAt ≤ b.createdAt then some x else some b := by
  cases s with
  | nil => rfl
  | cons b t =>
      simp only [List.orderedInsert, queue.byCreatedAt]
      by_cases h : x.createdAt ≤ b.createdAt <;> simp [h]

/-- The head of the stable insertion sort is the first minimum. -/
theorem head?_insertionSort (l : List QueueJob) :
    (List.insertionSort queue.byCreatedAt l).head? =
      firstMinBy QueueJob.createdAt l := by
  induction l with
  | nil => rfl
  | cons x t ih =>
      simp only [List.insertionSort, firstMinBy, head?_orderedInsert, ih]

/-- C6: on every store state, `nextPending()` returns `none` exactly when no
job is pending, and otherwise returns a pending job whose `createdAt` is
minimal among all pending jobs, and which is the first such minimal pending
job in insertion order (every pending job stored before it is strictly
younger in `createdAt`). -/
theorem nextPending_correct (jobs : List QueueJob) :
    (queue.nextPending jobs = none ↔ ∀ j ∈ jobs, j.status ≠ .pending) ∧
    ∀ j, queue.nextPending jobs = some j →
      j ∈ jobs ∧ j.status = .pending ∧
      (∀ j' ∈ jobs, j'.status = .pending → j.createdAt ≤ j'.createdAt) ∧
      ∃ g₁ g₂, jobs = g₁ ++ j :: g₂ ∧
        ∀ j' ∈ g₁, j'.status = .pending → j.createdAt < j'.createdAt := by
  constructor
  · rw [queue.nextPending, head?_insertionSort, firstMinBy_eq_none,
      List.filter_eq_nil_iff]
    simp
  · intro j hj
    rw [queue.nextPending, head?_insertionSort] at hj
    obtain ⟨hmem, hmin, l₁, l₂, hsplit, hstrict⟩ :=
      firstMinBy_spec QueueJob.createdAt _ j hj
    have hjmem := List.mem_filter.mp hmem
    refine ⟨hjmem.1, by simpa using hjmem.2, ?_, ?_⟩
    · intro j' hj' hp
      exact hmin j' (List.mem_filter.mpr ⟨hj', by simpa using hp⟩)
    · obtain ⟨g₁, g₂, hg, hgf⟩ :=
        filter_split (fun j => j.status = .pending) jobs l₁ j l₂ hsplit
      refine ⟨g₁, g₂, hg, ?_⟩
      intro j' hj' hp
      refine hstrict j' ?_
      rw [← hgf]
      exact List.mem_filter.mpr ⟨hj', by simpa using hp⟩

/-- Witness for C6 on a concrete three-job store with a `createdAt` tie
between the two pending jobs: the tie is broken by insertion order. -/
theorem nextPending_correct_witness :
    jobB ∈ jobsABC ∧ jobB.status = .pending ∧
    (∀ j' ∈ jobsABC, j'.status = .pending → jobB.createdAt ≤ j'.createdAt) ∧
    ∃ g₁ g₂, jobsABC = g₁ ++ jobB :: g₂ ∧
      ∀ j' ∈ g₁, j'.status = .pending → jobB.createdAt < j'.createdAt :=
  (nextPending_correct jobsABC).2 jobB (by decide)

/-- C1: after a crash mid-render the durable store holds the job with status
`rendering`; because `runLoop` obtains work only through
`queue.nextPending()`, which selects only `pending` jobs, a restarted loop
never touches this store again — for every job-processing body and every
number of poll iterations the store is unchanged and the job's status stays
`rendering` (in particular it never becomes `done`). -/
theorem crashed_job_never_resumed
    (handle : QueueJob → List QueueJob → List QueueJob) (n : ℕ) :
    (runLoopStep handle)^[n] crashedStore = crashedStore ∧
    (queue.get ((runLoopStep handle)^[n] crashedStore) "j1").map
        QueueJob.status = some JobStatus.rendering ∧
    some JobStatus.rendering ≠ some JobStatus.done := by
  have hstep : runLoopStep handle crashedStore = crashedStore := by
    have hnp : queue.nextPending crashedStore = none := by decide
    simp [runLoopStep, hnp]
  have hit : (runLoopStep handle)^[n] crashedStore = crashedStore := by
    induction n with
    | zero => rfl
    | succ k ih => rw [Function.iterate_succ_apply, hstep, ih]
  refine ⟨hit, ?_, by decide⟩
  rw [hit]
  decide

/-- C2 counterexample: a job whose status is `done` is moved back to status
`rendering` by a single `queue.setProgress` call, so terminal statuses are
not absorbing under store operations. -/
theorem terminal_absorbing_counterexample :
    doneJob.status = JobStatus.done ∧
    (queue.get (queue.setProgress [doneJob] "a" (1/2)) "a").map
        QueueJob.status = some JobStatus.rendering ∧
    JobStatus.rendering ≠ JobStatus.done := by decide

/-- C2 (amended): terminal statuses are not absorbing at the store level.
Once a job is terminal, an `update` whose patch carries no status field
leaves its status unchanged, but `setProgress` unconditionally rewrites the
status to `rendering` and `cancel` unconditionally rewrites it to
`cancelled`. -/
theorem terminal_status_fate (jobs : List QueueJob) (id : String)
    (j : QueueJob) (hget : queue.get jobs id = some j)
    (_hterm : j.status = .done ∨ j.status = .error ∨ j.status = .cancelled) :
    ((queue.get (queue.cancel jobs id) id).map QueueJob.status =
        some JobStatus.cancelled) ∧
    (∀ q : ℚ, (queue.get (queue.setProgress jobs id q) id).map
        QueueJob.status = some JobStatus.rendering) ∧
    (∀ p : JobPatch, p.status = none →
      (queue.get (queue.update id p jobs) id).map QueueJob.status =
        some j.status) := by
  refine ⟨?_, ?_, ?_⟩
  · rw [queue.cancel, get_update, hget]
    rfl
  · intro q
    rw [queue.setProgress, get_update, hget]
    rfl
  · intro p hp
    rw [get_update, hget]
    simp [mergeJob, hp]

/-- Witness for C2 (amended) on the concrete one-job store. -/
theorem terminal_status_fate_witness :
    ((queue.get (queue.cancel [doneJob] "a") "a").map QueueJob.status =
        some JobStatus.cancelled) ∧
    (∀ q : ℚ, (queue.get (queue.setProgress [doneJob] "a" q) "a").map
        QueueJob.status = some JobStatus.rendering) ∧
    (∀ p : JobPatch, p.status = none →
      (queue.get (queue.update "a" p [doneJob]) "a").map QueueJob.status =
        some doneJob.status) :=
  terminal_status_fate [doneJob] "a" doneJob (by decide) (by decide)

/-- C5 counterexample: the facade cancel operation is not a no-op on a
terminal job — on a `done` job it rewrites the status to `cancelled`. -/
theorem cancelJob_noop_counterexample :
    doneJob.status = JobStatus.done ∧
    (cancelJob [doneJob] "a").1 ≠ [doneJob] ∧
    (queue.get (cancelJob [doneJob] "a").1 "a").map QueueJob.status =
      some JobStatus.cancelled := by decide

/-- C5 (amended): `cancelJob` always returns ok and is idempotent (running
it twice leaves the same store as running it once); it is a no-op on jobs
that are already `cancelled`, but on `done` or `error` jobs it rewrites the
status to `cancelled` rather than leaving the record unchanged. -/
theorem cancelJob_idempotent (jobs : List QueueJob) (id : String) :
    (cancelJob (cancelJob jobs id).1 id).1 = (cancelJob jobs id).1 ∧
    (cancelJob jobs id).2 = true ∧
    (∀ j, queue.get jobs id = some j → j.status = .cancelled →
      (cancelJob jobs id).1 = jobs) := by
  refine ⟨?_, rfl, ?_⟩
  · exact update_update jobs id _
  · intro j hget hc
    refine update_eq_self jobs id _ j hget ?_
    have : { j with status := JobStatus.cancelled } = j := by
      rw [← hc]
    simpa [mergeJob] using this

/-- Witness for C5 (amended): a store holding one already-cancelled job. -/
theorem cancelJob_idempotent_witness :
    (cancelJob (cancelJob [{ doneJob with status := .cancelled }] "a").1
        "a").1 = (cancelJob [{ doneJob with status := .cancelled }] "a").1 ∧
    (cancelJob [{ doneJob with status := .cancelled }] "a").2 = true ∧
    (∀ j, queue.get [{ doneJob with status := .cancelled }] "a" = some j →
      j.status = .cancelled →
      (cancelJob [{ doneJob with status := .cancelled }] "a").1 =
        [{ doneJob with status := .cancelled }]) :=
  cancelJob_idempotent [{ doneJob with status := .cancelled }] "a"

/-- C8: whenever the encoding tool is missing or the probe command throws,
encoder detection returns the software fallback `libx264` instead of
raising, both directly and through the memoizing `getEncoder`. -/
theorem probe_failure_never_fatal (r : ProbeResult)
    (h : r = .missing ∨ r = .errored) :
    detectHWEncoder r = "libx264" ∧ (getEncoder none r).1 = "libx264" := by
  rcases h with rfl | rfl <;> exact ⟨rfl, rfl⟩

/-- Witness for C8 at the missing-tool outcome. -/
theorem probe_failure_never_fatal_witness :
    (ProbeResult.missing = ProbeResult.missing ∨
      ProbeResult.missing = ProbeResult.errored) ∧
    (detectHWEncoder .missing = "libx264" ∧
      (getEncoder none .missing).1 = "libx264") :=
  ⟨Or.inl rfl, probe_failure_never_fatal .missing (Or.inl rfl)⟩

/-- C10: detection scans the probe output in the fixed priority order
nvenc, videotoolbox, amf, qsv — it returns the first name of that list that
occurs in the output — and returns `libx264` exactly when the probe failed
or none of the four names occurs. -/
theorem detect_priority_order :
    (∀ s, detectHWEncoder (.output s) =
      ((encoderPriority.find? (fun e => jsIncludes s e)).getD "libx264")) ∧
    (∀ r, detectHWEncoder r = "libx264" ↔
      (r = .missing ∨ r = .errored ∨
        ∃ s, r = .output s ∧ ∀ e ∈ encoderPriority, jsIncludes s e = false)) := by
  have d1 : "h264_nvenc" ≠ "libx264" := by decide
  have d2 : "h264_videotoolbox" ≠ "libx264" := by decide
  have d3 : "h264_amf" ≠ "libx264" := by decide
  have d4 : "h264_qsv" ≠ "libx264" := by decide
  constructor
  · intro s
    simp only [detectHWEncoder, encoderPriority, List.find?]
    cases h1 : jsIncludes s "h264_nvenc" <;>
      cases h2 : jsIncludes s "h264_videotoolbox" <;>
        cases h3 : jsIncludes s "h264_amf" <;>
          cases h4 : jsIncludes s "h264_qsv" <;>
            simp [h1, h2, h3, h4]
  · intro r
    cases r with
    | missing => simp [detectHWEncoder]
    | errored => simp [detectHWEncoder]
    | output s =>
        simp only [detectHWEncoder, encoderPriority]
        cases h1 : jsIncludes s "h264_nvenc" <;>
          cases h2 : jsIncludes s "h264_videotoolbox" <;>
            cases h3 : jsIncludes s "h264_amf" <;>
              cases h4 : jsIncludes s "h264_qsv" <;>
                simp [h1, h2, h3, h4, d1, d2, d3, d4]

/-- C7: staging applies no sanitization — the staged filename embeds the
raw upload key, so an upload named `../../etc/passwd` yields a staged
filename that contains the path separator `/` and characters outside the
allowed alphanumeric/`.`/`-` class. -/
theorem staging_filename_unsanitized :
    audioSafeName "../../etc/passwd" = "audio-../../etc/passwd.data" ∧
    '/' ∈ (audioSafeName "../../etc/passwd").data ∧
    ¬ (∀ c ∈ (audioSafeName "../../etc/passwd").data, sanitizedChar c) := by
  refine ⟨by decide, by decide, by decide⟩

/-- C4 counterexample: a fresh 100-frame job whose frame-range callback
reaches local progress 1 produces the store writes
`0.01, 0, 1, 0.99, 1` while the status is `rendering`: both the range
write (`0 < 0.01`) and the stitch write (`0.99 < 1`) regress, so the
write sequence is not monotonically non-decreasing. -/
theorem progress_monotone_counterexample :
    ¬ List.Chain' (· ≤ ·) (progressWrites 0 100 [1]) := by
  have h : progressWrites 0 100 [1] = [1/100, 0, 1, 99/100, 1] := by
    norm_num [progressWrites, absoluteProgress]
  rw [h]
  intro hc
  rw [List.chain'_cons] at hc
  have h0 : ((1 : ℚ)/100) ≤ 0 := hc.1
  norm_num at h0

/-- C4 (amended): on the success path the store writes for a job are the
fixed initial `0.01`, then the frame-phase writes — the range write
`startFrame/durationInFrames` followed by the scaled callback values, which
are non-decreasing and bounded by the final value `1` — then the stitch-step
`0.99`, then the final `1` (the value a `done` job ends at, after which no
further write occurs).  The two writes excluded from the monotone part are
exactly the ones the counterexample exhibits as regressions. -/
theorem progress_writes_amended (startFrame durationInFrames : ℕ)
    (ps : List ℚ)
    (hdur : 0 < durationInFrames) (hstart : startFrame < durationInFrames)
    (hchain : List.Chain' (· ≤ ·) ps)
    (hbounds : ∀ p ∈ ps, 0 ≤ p ∧ p ≤ 1) :
    progressWrites startFrame durationInFrames ps =
      1/100 :: (((startFrame : ℚ) / (durationInFrames : ℚ)) ::
        ps.map (absoluteProgress startFrame durationInFrames) ++
          [99/100, 1]) ∧
    List.Chain' (· ≤ ·)
      (((startFrame : ℚ) / (durationInFrames : ℚ)) ::
        ps.map (absoluteProgress startFrame durationInFrames) ++ [1]) ∧
    (progressWrites startFrame durationInFrames ps).getLast? = some 1 := by
  have hif : startFrame ≤ durationInFrames - 1 := by omega
  have heq : progressWrites startFrame durationInFrames ps =
      1/100 :: (((startFrame : ℚ) / (durationInFrames : ℚ)) ::
        ps.map (absoluteProgress startFrame durationInFrames) ++
          [99/100, 1]) := by
    simp [progressWrites, hif]
  have hD : (0 : ℚ) < (durationInFrames : ℚ) := by
    exact_mod_cast hdur
  have hSD : (startFrame : ℚ) + 1 ≤ (durationInFrames : ℚ) := by
    exact_mod_cast hstart
  have hS0 : (0 : ℚ) ≤ (startFrame : ℚ) := by positivity
  have habs : ∀ p : ℚ, absoluteProgress startFrame durationInFrames p =
      ((startFrame : ℚ) + p * ((durationInFrames : ℚ) - (startFrame : ℚ))) /
        (durationInFrames : ℚ) := by
    intro p
    rw [absoluteProgress]
    ring_nf
  have hmono : ∀ p q : ℚ, p ≤ q →
      absoluteProgress startFrame durationInFrames p ≤
        absoluteProgress startFrame durationInFrames q := by
    intro p q hpq
    rw [habs, habs, div_le_div_iff_of_pos_right hD]
    nlinarith
  have hlow : ∀ p : ℚ, 0 ≤ p →
      (startFrame : ℚ) / (durationInFrames : ℚ) ≤
        absoluteProgress startFrame durationInFrames p := by
    intro p hp
    rw [habs, div_le_div_iff_of_pos_right hD]
    nlinarith
  have hhigh : ∀ p : ℚ, p ≤ 1 →
      absoluteProgress startFrame durationInFrames p ≤ 1 := by
    intro p hp
    rw [habs]
    rw [div_le_one hD]
    nlinarith
  have hd1 : (startFrame : ℚ) / (durationInFrames : ℚ) ≤ 1 := by
    rw [div_le_one hD]
    linarith
  refine ⟨heq, ?_, ?_⟩
  · rw [List.chain'_iff_pairwise, List.pairwise_append, List.pairwise_cons]
    refine ⟨⟨?_, ?_⟩, by simp, ?_⟩
    · intro y hy
      obtain ⟨p, hp, rfl⟩ := List.mem_map.mp hy
      exact hlow p (hbounds p hp).1
    · exact (List.chain'_iff_pairwise.mp hchain).map _ hmono
    · intro x hx y hy
      rcases List.mem_singleton.mp hy with rfl
      rcases List.mem_cons.mp hx with rfl | hx
      · exact hd1
      · obtain ⟨p, hp, rfl⟩ := List.mem_map.mp hx
        exact hhigh p (hbounds p hp).2
  · rw [heq]
    have h2 : ∀ (l : List ℚ) (x : ℚ),
        (x :: (l ++ [99/100, 1])).getLast? = some 1 := by
      intro l x
      rw [← List.cons_append,
        show [99/100, (1 : ℚ)] = [99/100] ++ [1] from rfl,
        ← List.append_assoc]
      exact List.getLast?_concat _
    exact h2 _ _

/-- Witness for C4 (amended): a fresh 100-frame job with no callbacks. -/
theorem progress_writes_amended_witness :
    (0 : ℕ) < 100 ∧
    (progressWrites 0 100 [] =
      1/100 :: (((0 : ℕ) : ℚ) / ((100 : ℕ) : ℚ) ::
        List.map (absoluteProgress 0 100) [] ++ [99/100, 1]) ∧
    List.Chain' (· ≤ ·)
      (((0 : ℕ) : ℚ) / ((100 : ℕ) : ℚ) ::
        List.map (absoluteProgress 0 100) [] ++ [1]) ∧
    (progressWrites 0 100 []).getLast? = some 1) :=
  ⟨by decide,
    progress_writes_amended 0 100 [] (by decide) (by decide)
      (by simp) (by simp)⟩

theorem digitChar_spec (d : ℕ) (h : d < 10) :
    (Nat.digitChar d).isDigit = true ∧ (Nat.digitChar d).toNat - 48 = d := by
  interval_cases d <;> exact ⟨by decide, by decide⟩

/-- The decimal digit list of `n` is nonempty, all digits, and `parseInt`
folds it back to `n` (stated with a general accumulator). -/
theorem decDigits_spec (n : ℕ) :
    decDigits n ≠ [] ∧ (∀ c ∈ decDigits n, c.isDigit = true) ∧
    ∀ a : ℕ,
      List.foldl (fun a c => a * 10 + (c.toNat - 48)) a (decDigits n) =
        a * 10 ^ (decDigits n).length + n := by
  induction n using Nat.strong_induction_on with
  | _ n ih =>
    by_cases h : n < 10
    · rw [decDigits, dif_pos h]
      refine ⟨by simp, ?_, ?_⟩
      · intro c hc
        rcases List.mem_singleton.mp hc with rfl
        exact (digitChar_spec n h).1
      · intro a
        simp only [List.foldl, List.length_cons, List.length_nil]
        rw [(digitChar_spec n h).2, pow_one]
    · have h10 : 10 ≤ n := le_of_not_lt h
      have hlt : n / 10 < n := Nat.div_lt_self (by omega) (by omega)
      obtain ⟨hne, hdig, hfold⟩ := ih (n / 10) hlt
      have hm : n % 10 < 10 := Nat.mod_lt _ (by omega)
      rw [decDigits, dif_neg h]
      refine ⟨by simp, ?_, ?_⟩
      · intro c hc
        rcases List.mem_append.mp hc with hc | hc
        · exact hdig c hc
        · rcases List.mem_singleton.mp hc with rfl
          exact (digitChar_spec (n % 10) hm).1
      · intro a
        rw [List.foldl_append, hfold]
        simp only [List.foldl]
        rw [(digitChar_spec (n % 10) hm).2, List.length_append]
        simp only [List.length_cons, List.length_nil]
        calc (a * 10 ^ (decDigits (n / 10)).length + n / 10) * 10 + n % 10
            = a * 10 ^ ((decDigits (n / 10)).length + (0 + 1)) +
                (n / 10 * 10 + n % 10) := by ring
          _ = a * 10 ^ ((decDigits (n / 10)).length + (0 + 1)) + n := by
                rw [Nat.div_add_mod']

/-- Core's fuel-based digit printer agrees with the structural digit list
whenever the fuel suffices. -/
theorem toDigitsCore_eq_decDigits (fuel : ℕ) :
    ∀ n ds, n < fuel →
      Nat.toDigitsCore 10 fuel n ds = decDigits n ++ ds := by
  induction fuel with
  | zero => intro n ds h; omega
  | succ f ihf =>
      intro n ds h
      by_cases h10 : n < 10
      · have hdiv : n / 10 = 0 := Nat.div_eq_of_lt h10
        simp only [Nat.toDigitsCore]
        rw [if_pos hdiv, decDigits, dif_pos h10, Nat.mod_eq_of_lt h10]
        rfl
      · have hdiv : ¬ n / 10 = 0 := by
          have := Nat.div_pos (le_of_not_lt h10) (by omega)
          omega
        have hlt : n / 10 < f := by
          have h1 : n / 10 < n := Nat.div_lt_self (by omega) (by omega)
          omega
        simp only [Nat.toDigitsCore]
        rw [if_neg hdiv, ihf (n / 10) _ hlt]
        conv_rhs => rw [decDigits, dif_neg h10]
        rw [List.append_cons]

/-- The characters of `Nat.repr` are the structural decimal digits. -/
theorem repr_data (n : ℕ) : (Nat.repr n).data = decDigits n := by
  show (List.asString (Nat.toDigits 10 n)).data = decDigits n
  rw [Nat.toDigits,
    toDigitsCore_eq_decDigits (n + 1) n [] (Nat.lt_succ_self n),
    List.append_nil]
  rfl

theorem dropWhile_append_all {p : Char → Bool} (l₁ l₂ : List Char)
    (h : ∀ a ∈ l₁, p a = true) :
    (l₁ ++ l₂).dropWhile p = l₂.dropWhile p := by
  induction l₁ with
  | nil => rfl
  | cons c cs ih =>
      rw [List.cons_append, List.dropWhile_cons,
        if_pos (h c (List.mem_cons_self c cs))]
      exact ih (fun a ha => h a (List.mem_cons_of_mem c ha))

theorem takeWhile_append_all {p : Char → Bool} (l₁ l₂ : List Char)
    (h : ∀ a ∈ l₁, p a = true) :
    (l₁ ++ l₂).takeWhile p = l₁ ++ l₂.takeWhile p := by
  induction l₁ with
  | nil => rfl
  | cons c cs ih =>
      rw [List.cons_append, List.takeWhile_cons,
        if_pos (h c (List.mem_cons_self c cs)),
        ih (fun a ha => h a (List.mem_cons_of_mem c ha)),
        List.cons_append]

theorem frameName_data (i : ℕ) :
    (frameName i).data = "frame-".data ++ (decDigits i ++ ".jpeg".data) := by
  rw [frameName, String.data_append, String.data_append, repr_data,
    List.append_assoc]

theorem isFrameFile_frameName (i : ℕ) : isFrameFile (frameName i) = true := by
  obtain ⟨hne, hdig, -⟩ := decDigits_spec i
  have hD : 1 ≤ (decDigits i).length := List.length_pos.mpr hne
  unfold isFrameFile
  rw [frameName_data]
  have hlen : ("frame-".data ++ (decDigits i ++ ".jpeg".data)).length
      = (decDigits i).length + 11 := by
    rw [List.length_append, List.length_append,
      show ("frame-".data).length = 6 from rfl,
      show (".jpeg".data).length = 5 from rfl]
    omega
  have hds : (("frame-".data ++ (decDigits i ++ ".jpeg".data)).drop 6).take
      (("frame-".data ++ (decDigits i ++ ".jpeg".data)).length - 11)
      = decDigits i := by
    rw [hlen, List.drop_left' (show ("frame-".data).length = 6 from rfl),
      show (decDigits i).length + 11 - 11 = (decDigits i).length by omega,
      List.take_left]
  simp only [Bool.and_eq_true, decide_eq_true_eq]
  refine ⟨⟨⟨?_, ?_⟩, ?_⟩, ?_, ?_⟩
  · exact List.take_left' rfl
  · rw [hlen, ← List.append_assoc]
    exact List.drop_left' (by
      rw [List.length_append, show ("frame-".data).length = 6 from rfl]
      omega)
  · rw [hlen]; omega
  · rw [hds]
    cases hD' : decDigits i with
    | nil => exact absurd hD' hne
    | cons c cs => rfl
  · rw [hds]
    exact List.all_eq_true.mpr hdig

theorem firstDigitRunVal_frameName (i : ℕ) :
    firstDigitRunVal (frameName i) = i := by
  obtain ⟨hne, hdig, hfold⟩ := decDigits_spec i
  rw [firstDigitRunVal, frameName_data]
  rw [dropWhile_append_all _ _
    (by decide : ∀ a ∈ ("frame-".data), (!a.isDigit) = true)]
  cases hD' : decDigits i with
  | nil => exact absurd hD' hne
  | cons c cs =>
      have hdig' : ∀ a ∈ c :: cs, a.isDigit = true := by
        intro a ha; exact hdig a (hD' ▸ ha)
      rw [List.cons_append, List.dropWhile_cons,
        if_neg (by simp [hdig' c (List.mem_cons_self c cs)]),
        ← List.cons_append,
        takeWhile_append_all _ _ hdig',
        show (".jpeg".data).takeWhile Char.isDigit = [] from rfl,
        List.append_nil]
      have := hfold 0
      rw [hD'] at this
      simpa [digitsVal] using this

theorem foldl_max_range (n : ℕ) :
    (List.range (n + 1)).foldl Nat.max 0 = n := by
  induction n with
  | zero => rfl
  | succ k ih =>
      rw [List.range_succ, List.foldl_append, ih]
      show Nat.max k (k + 1) = k + 1
      exact Nat.max_eq_right (Nat.le_succ k)

/-- C3: when the frame directory holds exactly the frame files for indices
0..K-1 (in any directory-listing order), the worker resumes at frame K —
the `renderMedia` invocation requests the range starting at K, and no frame
below K is requested again. -/
theorem resume_starts_at_checkpoint (K durationInFrames : ℕ)
    (files : List String) (hK : 1 ≤ K)
    (hfiles : files.Perm ((List.range K).map frameName)) :
    startFrameOf files = K ∧
    ∀ i, i < K → i ∉ requestedFrames files durationInFrames := by
  have hall : ∀ f ∈ (List.range K).map frameName, isFrameFile f = true := by
    intro f hf
    obtain ⟨i, -, rfl⟩ := List.mem_map.mp hf
    exact isFrameFile_frameName i
  have hfilter : ((List.range K).map frameName).filter isFrameFile
      = (List.range K).map frameName := List.filter_eq_self.mpr hall
  have hpf : (files.filter isFrameFile).Perm ((List.range K).map frameName) := by
    have h := hfiles.filter isFrameFile
    rwa [hfilter] at h
  have hlenf : (files.filter isFrameFile).length = K := by
    rw [hpf.length_eq, List.length_map, List.length_range]
  have hmapval : ((List.range K).map frameName).map firstDigitRunVal
      = List.range K := by
    rw [List.map_map]
    have h : ∀ x ∈ List.range K, (firstDigitRunVal ∘ frameName) x = x := by
      intro x _
      exact firstDigitRunVal_frameName x
    calc (List.range K).map (firstDigitRunVal ∘ frameName)
        = (List.range K).map id := List.map_congr_left (by simpa using h)
      _ = List.range K := List.map_id _
  have hp3 : ((files.filter isFrameFile).map firstDigitRunVal).Perm
      (List.range K) := by
    have h := hpf.map firstDigitRunVal
    rwa [hmapval] at h
  have hstart : startFrameOf files = K := by
    simp only [startFrameOf]
    rw [if_pos (by rw [hlenf]; omega)]
    rw [List.Perm.foldl_eq' hp3
      (by
        intro x _ y _ z
        simp only [Nat.max_def]
        split_ifs <;> omega) 0]
    obtain ⟨k, rfl⟩ : ∃ k, K = k + 1 := ⟨K - 1, by omega⟩
    rw [foldl_max_range]
  refine ⟨hstart, ?_⟩
  intro i hi
  simp only [requestedFrames]
  rw [hstart]
  by_cases hc : K ≤ durationInFrames - 1
  · rw [if_pos hc]
    intro hmem
    rw [List.mem_range'] at hmem
    obtain ⟨t, -, rfl⟩ := hmem
    omega
  · rw [if_neg hc]
    exact List.not_mem_nil i

/-- Witness for C3: frames 0 and 1 on disk (listed out of order), a
5-frame composition — the worker resumes at frame 2. -/
theorem resume_starts_at_checkpoint_witness :
    1 ≤ 2 ∧
    (["frame-1.jpeg", "frame-0.jpeg"].Perm ((List.range 2).map frameName)) ∧
    (startFrameOf ["frame-1.jpeg", "frame-0.jpeg"] = 2 ∧
      ∀ i, i < 2 →
        i ∉ requestedFrames ["frame-1.jpeg", "frame-0.jpeg"] 5) :=
  ⟨by decide, by decide,
    resume_starts_at_checkpoint 2 5 ["frame-1.jpeg", "frame-0.jpeg"]
      (by decide) (by decide)⟩

/-- Folding the frame-callback `setProgress` writes acts on the looked-up
row by folding the corresponding merges. -/
theorem get_foldl_setProgress (id : String) (ps : List ℚ) :
    ∀ jobs,
      queue.get (ps.foldl (fun js q => queue.setProgress js id q) jobs) id =
        (queue.get jobs id).map
          (fun j => ps.foldl (fun j q => mergeJob j (rangePatch q)) j) := by
  induction ps with
  | nil =>
      intro jobs
      simp only [List.foldl]
      cases queue.get jobs id <;> rfl
  | cons q ps ih =>
      intro jobs
      simp only [List.foldl]
      rw [ih, queue.setProgress, get_update]
      cases queue.get jobs id <;> rfl

/-- Every individual step acts on the looked-up row by a function. -/
theorem get_renderStep (P : RenderParams) (tDone : ℕ) (i : ℕ)
    (s : RenderState) :
    ∃ g : QueueJob → QueueJob,
      queue.get (renderStep P tDone i s).jobs P.id =
        (queue.get s.jobs P.id).map g := by
  have hid : ∀ o : Option QueueJob, o.map (fun j => j) = o := by
    intro o; cases o <;> rfl
  match i with
  | 1 => exact ⟨_, get_update s.jobs P.id (startPatch P.startedAt)⟩
  | 11 =>
      refine ⟨fun j => P.callbacks.foldl (fun j q => mergeJob j (rangePatch q))
        (mergeJob j (rangePatch P.rangeProgress)), ?_⟩
      show queue.get (P.callbacks.foldl (fun js q => queue.setProgress js P.id q)
        (queue.update P.id (rangePatch P.rangeProgress) s.jobs)) P.id = _
      rw [get_foldl_setProgress, get_update]
      cases queue.get s.jobs P.id <;> rfl
  | 12 => exact ⟨_, get_update s.jobs P.id stitchPatch⟩
  | 13 => exact ⟨_, get_update s.jobs P.id (encoderPatch P.encoder)⟩
  | 16 => exact ⟨_, get_update s.jobs P.id (donePatch P.outputFileName tDone)⟩
  | 0 => exact ⟨fun j => j, (hid _).symm⟩
  | 2 => exact ⟨fun j => j, (hid _).symm⟩
  | 3 => exact ⟨fun j => j, (hid _).symm⟩
  | 4 => exact ⟨fun j => j, (hid _).symm⟩
  | 5 => exact ⟨fun j => j, (hid _).symm⟩
  | 6 => exact ⟨fun j => j, (hid _).symm⟩
  | 7 => exact ⟨fun j => j, (hid _).symm⟩
  | 8 => exact ⟨fun j => j, (hid _).symm⟩
  | 9 => exact ⟨fun j => j, (hid _).symm⟩
  | 10 => exact ⟨fun j => j, (hid _).symm⟩
  | 14 => exact ⟨fun j => j, (hid _).symm⟩
  | 15 => exact ⟨fun j => j, (hid _).symm⟩
  | 17 => exact ⟨fun j => j, (hid _).symm⟩
  | n + 18 => exact ⟨fun j => j, (hid _).symm⟩

/-- Running any number of steps acts on the looked-up row by a function. -/
theorem get_runSteps (P : RenderParams) (tDone : ℕ) :
    ∀ k s, ∃ f : QueueJob → QueueJob,
      queue.get (runSteps P tDone k s).jobs P.id =
        (queue.get s.jobs P.id).map f := by
  intro k
  induction k with
  | zero =>
      intro s
      refine ⟨fun j => j, ?_⟩
      show queue.get s.jobs P.id = (queue.get s.jobs P.id).map (fun j => j)
      cases queue.get s.jobs P.id <;> rfl
  | succ k ih =>
      intro s
      obtain ⟨f, hf⟩ := ih s
      obtain ⟨g, hg⟩ := get_renderStep P tDone k (runSteps P tDone k s)
      refine ⟨fun j => g (f j), ?_⟩
      show queue.get (renderStep P tDone k (runSteps P tDone k s)).jobs P.id = _
      rw [hg, hf]
      cases queue.get s.jobs P.id <;> rfl

/-- Steps 0..16 never delete the frame directory. -/
theorem framesDir_renderStep (P : RenderParams) (tDone : ℕ) (i : ℕ)
    (hi : i ≤ 16) (s : RenderState) (h : s.fs.framesDir = true) :
    (renderStep P tDone i s).fs.framesDir = true := by
  match i with
  | 0 | 3 | 4 | 5 | 7 | 9 | 10 | 14 | 15 => exact h
  | 1 | 11 | 12 | 13 | 16 => exact h
  | 2 | 6 => exact h
  | 8 => rfl
  | 17 => omega
  | n + 18 => omega

/-- Crashing anywhere in steps 0..17 never deletes a pre-existing frame
directory. -/
theorem framesDir_runSteps_preserved (P : RenderParams) (tDone : ℕ) :
    ∀ k, k ≤ 17 → ∀ s : RenderState, s.fs.framesDir = true →
      (runSteps P tDone k s).fs.framesDir = true := by
  intro k
  induction k with
  | zero => intro _ s h; exact h
  | succ k ih =>
      intro hk s h
      show (renderStep P tDone k (runSteps P tDone k s)).fs.framesDir = true
      exact framesDir_renderStep P tDone k (by omega) _
        (ih (by omega) s h)

/-- Once `mkdir(framesDir)` (step 8) has completed, the frame directory
exists through every step up to (and excluding) the success-path deletion. -/
theorem framesDir_runSteps_created (P : RenderParams) (tDone : ℕ)
    (s : RenderState) :
    ∀ k, 9 ≤ k → k ≤ 17 →
      (runSteps P tDone k s).fs.framesDir = true := by
  intro k
  induction k with
  | zero => omega
  | succ k ih =>
      intro h9 h17
      by_cases hk : 9 ≤ k
      · show (renderStep P tDone k (runSteps P tDone k s)).fs.framesDir = true
        exact framesDir_renderStep P tDone k (by omega) _ (ih hk (by omega))
      · have : k = 8 := by omega
        subst this
        rfl

/-- C9: if any step of `renderJob` throws, the job is marked `error` with
the exception's message and a `completedAt` stamp, and the durable frame
directory is never deleted (a pre-existing checkpoint is preserved, and one
created during the run survives); the loopback listener and the staging
directory are released on that path.  The frame directory is deleted only
on the success path, after stitching, where the job is marked `done` with
progress 1 — and the listener and staging directory are released there
too. -/
theorem error_keeps_checkpoint (P : RenderParams) (tDone : ℕ)
    (msg : String) (tErr : ℕ) (s : RenderState) (j : QueueJob)
    (hget : queue.get s.jobs P.id = some j)
    (hserver : s.fs.serverOpen = false) (htemp : s.fs.tempDir = false) :
    (∀ k, k ≤ 17 →
      ((queue.get (renderJobRun P tDone msg tErr (some k) s).jobs P.id).map
          QueueJob.status = some JobStatus.error ∧
       (queue.get (renderJobRun P tDone msg tErr (some k) s).jobs P.id).bind
          QueueJob.error = some msg ∧
       (queue.get (renderJobRun P tDone msg tErr (some k) s).jobs P.id).bind
          QueueJob.completedAt = some tErr ∧
       (s.fs.framesDir = true →
          (renderJobRun P tDone msg tErr (some k) s).fs.framesDir = true) ∧
       (9 ≤ k →
          (renderJobRun P tDone msg tErr (some k) s).fs.framesDir = true) ∧
       (renderJobRun P tDone msg tErr (some k) s).fs.serverOpen = false ∧
       (renderJobRun P tDone msg tErr (some k) s).fs.tempDir = false)) ∧
    ((queue.get (renderJobRun P tDone msg tErr none s).jobs P.id).map
        QueueJob.status = some JobStatus.done ∧
     (queue.get (renderJobRun P tDone msg tErr none s).jobs P.id).map
        QueueJob.progress = some 1 ∧
     (renderJobRun P tDone msg tErr none s).fs.framesDir = false ∧
     (renderJobRun P tDone msg tErr none s).fs.serverOpen = false ∧
     (renderJobRun P tDone msg tErr none s).fs.tempDir = false) := by
  constructor
  · intro k hk
    obtain ⟨f, hf⟩ := get_runSteps P tDone k s
    by_cases h3 : 3 ≤ k
    · have hrun : renderJobRun P tDone msg tErr (some k) s =
          catchUpdate P.id msg tErr (renderFinally (runSteps P tDone k s)) := by
        simp [renderJobRun, h3]
      rw [hrun]
      have hjobs : queue.get (catchUpdate P.id msg tErr
          (renderFinally (runSteps P tDone k s))).jobs P.id
          = some (mergeJob (f j) (errorPatch msg tErr)) := by
        show queue.get (queue.update P.id (errorPatch msg tErr)
          (runSteps P tDone k s).jobs) P.id = _
        rw [get_update, hf, hget]
        rfl
      refine ⟨?_, ?_, ?_, ?_, ?_, rfl, rfl⟩
      · rw [hjobs]; rfl
      · rw [hjobs]; rfl
      · rw [hjobs]; rfl
      · intro hfr
        show (runSteps P tDone k s).fs.framesDir = true
        exact framesDir_runSteps_preserved P tDone k hk s hfr
      · intro h9
        show (runSteps P tDone k s).fs.framesDir = true
        exact framesDir_runSteps_created P tDone s k h9 hk
    · have hrun : renderJobRun P tDone msg tErr (some k) s =
          catchUpdate P.id msg tErr (runSteps P tDone k s) := by
        simp [renderJobRun, h3]
      rw [hrun]
      have hfs : (runSteps P tDone k s).fs = s.fs := by
        have hk2 : k ≤ 2 := by omega
        interval_cases k <;> rfl
      have hjobs : queue.get (catchUpdate P.id msg tErr
          (runSteps P tDone k s)).jobs P.id
          = some (mergeJob (f j) (errorPatch msg tErr)) := by
        show queue.get (queue.update P.id (errorPatch msg tErr)
          (runSteps P tDone k s).jobs) P.id = _
        rw [get_update, hf, hget]
        rfl
      refine ⟨?_, ?_, ?_, ?_, ?_, ?_, ?_⟩
      · rw [hjobs]; rfl
      · rw [hjobs]; rfl
      · rw [hjobs]; rfl
      · intro hfr
        show (runSteps P tDone k s).fs.framesDir = true
        rw [hfs]
        exact hfr
      · intro h9
        omega
      · show (runSteps P tDone k s).fs.serverOpen = false
        rw [hfs]
        exact hserver
      · show (runSteps P tDone k s).fs.tempDir = false
        rw [hfs]
        exact htemp
  · obtain ⟨f, hf⟩ := get_runSteps P tDone 16 s
    have hjobs : queue.get (renderJobRun P tDone msg tErr none s).jobs P.id
        = some (mergeJob (f j) (donePatch P.outputFileName tDone)) := by
      show queue.get (queue.update P.id (donePatch P.outputFileName tDone)
        (runSteps P tDone 16 s).jobs) P.id = _
      rw [get_update, hf, hget]
      rfl
    refine ⟨?_, ?_, rfl, rfl, rfl⟩
    · rw [hjobs]; rfl
    · rw [hjobs]; rfl

/-- Witness for C9: a fresh one-job state; a crash at the stitch step
(step 15) marks the job errored and keeps the frame directory, while the
success path completes the job. -/
theorem error_keeps_checkpoint_witness :
    queue.get rsW.jobs rpW.id = some wJob ∧
    rsW.fs.serverOpen = false ∧ rsW.fs.tempDir = false ∧
    ((queue.get (renderJobRun rpW 20 "boom" 21 (some 15) rsW).jobs
        rpW.id).map QueueJob.status = some JobStatus.error ∧
     (renderJobRun rpW 20 "boom" 21 (some 15) rsW).fs.framesDir = true ∧
     (renderJobRun rpW 20 "boom" 21 (some 15) rsW).fs.serverOpen = false) ∧
    (queue.get (renderJobRun rpW 20 "boom" 21 none rsW).jobs rpW.id).map
        QueueJob.status = some JobStatus.done := by
  have h := error_keeps_checkpoint rpW 20 "boom" 21 rsW wJob
    (by decide) rfl rfl
  have h15 := h.1 15 (by decide)
  exact ⟨by decide, rfl, rfl,
    ⟨h15.1, h15.2.2.2.2.1 (by decide), h15.2.2.2.2.2.1⟩, h.2.1⟩
